import Mathlib

/-!
Shallow embedding of the trade-ledger accounting engine of
`src/trader_tools.py` (a Python MCP tool server), together with proofs of
the specification's claims about it.

Modelling conventions:
- Python floats are modelled as rationals (ℚ); `round(x, 2)` is modelled by
  `round2` below (rounding to two decimal places; the half-cent tie-breaking
  of IEEE floats is not exercised by any property here).
- The pandas DataFrame `df` of trade rows is modelled as a `List TradeRecord`
  in file order, the `Ledger`.
- `defaultdict` keyed by symbol is modelled as an insertion-ordered
  association list `List (String × α)` with a default value: `dget` reads a
  key (returning the default when absent) and `dupdate` applies a function to
  a key's value, inserting `f default` at the end when the key is absent —
  exactly the observable behaviour of `defaultdict` access in the source.
- The yfinance price fetch is modelled as an oracle `fetch : String → Option ℚ`;
  `none` stands for the fetch failing (exception or missing last_price).
-/

namespace TraderTools

/-- The `type` column of a trade row: `'Buy'` or `'Sell'`. -/
inductive TradeType where
  | Buy : TradeType
  | Sell : TradeType
deriving DecidableEq, Repr

/-- One row of `data/trade_history.csv`: date, symbol, type, shares,
price_per_share. -/
structure TradeRecord where
  date : String
  symbol : String
  type : TradeType
  shares : ℕ
  price_per_share : ℚ
deriving DecidableEq, Repr

/-- The trade ledger: the CSV rows in file order (the module-level `df`). -/
abbrev Ledger := List TradeRecord

/-- One unsold purchase lot `(shares, price_per_share)` as stored in the
source's FIFO queues. -/
abbrev Lot := ℕ × ℚ

/-- Python's `round` (banker's rounding): the integer nearest to `y`, ties
going to the even neighbour. With `n/d` the reduced form of `y` (`d > 0`),
the floor of `y + 1/2` is `(2n + d).fdiv (2d)`, and `y + 1/2` hits that
integer exactly (a tie) iff `2n + d = 2d·r`. -/
def roundHalfEven (y : ℚ) : ℤ :=
  let r : ℤ := (2 * y.num + (y.den : ℤ)) / (2 * (y.den : ℤ))
  if 2 * y.num + (y.den : ℤ) = 2 * (y.den : ℤ) * r ∧ r % 2 ≠ 0 then r - 1 else r

/-- Python's `round(x, 2)`: x rounded to two decimal places. -/
def round2 (x : ℚ) : ℚ := (roundHalfEven (x * 100) : ℚ) / 100

/-- Read a key from an insertion-ordered association list, returning the
default `d` when the key is absent (a `defaultdict` read). -/
def dget {α : Type} (d : α) : List (String × α) → String → α
  | [], _ => d
  | (k, v) :: rest, s => if k = s then v else dget d rest s

/-- Apply `f` to the value stored at key `s`, inserting `(s, f d)` at the end
when the key is absent: the effect of mutating `m[s]` on a `defaultdict` with
default `d`. -/
def dupdate {α : Type} (d : α) (s : String) (f : α → α) :
    List (String × α) → List (String × α)
  | [] => [(s, f d)]
  | (k, v) :: rest => if k = s then (k, f v) :: rest else (k, v) :: dupdate d s f rest

/-- The keys of an association list, in order. -/
def keysOf {α : Type} (m : List (String × α)) : List String := m.map Prod.fst

/-- `get_live_price(symbol)`: returns the fetched price, or the sentinel
`-1.0` when the fetch fails (`price is None` or an exception). -/
def get_live_price (fetch : String → Option ℚ) (s : String) : ℚ :=
  match fetch s with
  | none => -1
  | some p => p

/-- `current_price(symbol)`: delegates to `get_live_price`. -/
def current_price (fetch : String → Option ℚ) (s : String) : ℚ :=
  get_live_price fetch s

/-- The body of the source's FIFO sell loop
(`while to_sell > 0 and holdings: ...` in `unrealized_gains` and
`simulate_sell`): consume `n` shares from the front of the lot queue,
popping fully matched lots and shrinking a partially matched front lot;
an unmatched remainder when the queue empties is dropped. -/
def fifoSell : ℕ → List Lot → List Lot
  | _, [] => []
  | 0, q => q
  | Nat.succ n, (qty, bp) :: rest =>
    let m := min (Nat.succ n) qty
    if m = qty then fifoSell (Nat.succ n - qty) rest
    else (qty - m, bp) :: rest

/-- The FIFO sell loop of `realized_gains` and of `simulate_sell`'s
hypothetical sell (`while shares > 0 and buy_queues[symbol]: ...`): same
queue consumption as `fifoSell`, additionally accumulating
`matched * (price - buy_price)` for every lot touched. Returns the remaining
queue and the accumulated gain. -/
def fifoSellGain (price : ℚ) : ℕ → List Lot → List Lot × ℚ
  | _, [] => ([], 0)
  | 0, q => (q, 0)
  | Nat.succ n, (qty, bp) :: rest =>
    let m := min (Nat.succ n) qty
    if m = qty then
      let r := fifoSellGain price (Nat.succ n - qty) rest
      (r.1, (m : ℚ) * (price - bp) + r.2)
    else ((qty - m, bp) :: rest, (m : ℚ) * (price - bp))

/-- One row of the per-symbol balance replay shared by `portfolio()`:
Buy adds `shares` to the symbol's balance, Sell subtracts it. -/
def balStep (m : List (String × ℤ)) (r : TradeRecord) : List (String × ℤ) :=
  match r.type with
  | .Buy => dupdate 0 r.symbol (fun b => b + (r.shares : ℤ)) m
  | .Sell => dupdate 0 r.symbol (fun b => b - (r.shares : ℤ)) m

/-- The `holdings` defaultdict after `portfolio()`'s loop over `df`. -/
def holdingsBalances (l : Ledger) : List (String × ℤ) :=
  l.foldl balStep []

/-- `portfolio()`: per-symbol net balance, filtered to strictly positive
balances. -/
def portfolio (l : Ledger) : List (String × ℤ) :=
  (holdingsBalances l).filter (fun kv => 0 < kv.2)

/-- One row of the FIFO lot-queue replay of `unrealized_gains` (its first
loop over `df`): Buy appends a lot, Sell consumes from the front. -/
def holdingsStep (m : List (String × List Lot)) (r : TradeRecord) :
    List (String × List Lot) :=
  match r.type with
  | .Buy => dupdate [] r.symbol (fun q => q ++ [(r.shares, r.price_per_share)]) m
  | .Sell => dupdate [] r.symbol (fun q => fifoSell r.shares q) m

/-- The per-symbol remaining lot queues after replaying the whole ledger
(the `holdings` defaultdict of `unrealized_gains` after its first loop). -/
def buildHoldings (l : Ledger) : List (String × List Lot) :=
  l.foldl holdingsStep []

/-- One row of `realized_gains`'s replay: the same lot-queue evolution,
carrying the accumulated realized gain. -/
def realizedStep (acc : List (String × List Lot) × ℚ) (r : TradeRecord) :
    List (String × List Lot) × ℚ :=
  match r.type with
  | .Buy => (dupdate [] r.symbol (fun q => q ++ [(r.shares, r.price_per_share)]) acc.1,
             acc.2)
  | .Sell =>
    let res := fifoSellGain r.price_per_share r.shares (dget [] acc.1 r.symbol)
    (dupdate [] r.symbol (fun _ => res.1) acc.1, acc.2 + res.2)

/-- The state (`buy_queues`, `gains`) after `realized_gains`'s loop over `df`. -/
def realizedFold (l : Ledger) : List (String × List Lot) × ℚ :=
  l.foldl realizedStep ([], 0)

/-- `realized_gains()`: total FIFO realized gain, rounded to 2 decimals. -/
def realized_gains (l : Ledger) : ℚ :=
  round2 (realizedFold l).2

/-- Total shares of a lot queue (`sum(q for q, _ in buys)`). -/
def lotShares (q : List Lot) : ℕ := (q.map Prod.fst).sum

/-- Total cost of a lot queue (`sum(q * p for q, p in buys)`). -/
def lotCost (q : List Lot) : ℚ := (q.map (fun lot => (lot.1 : ℚ) * lot.2)).sum

/-- `unrealized_gains()`: for each symbol of the replayed holdings with a
nonzero remaining share count, `(live_price - average_cost) * total_shares`
rounded to 2 decimals; symbols with zero remaining shares are skipped. -/
def unrealized_gains (fetch : String → Option ℚ) (l : Ledger) :
    List (String × ℚ) :=
  (buildHoldings l).filterMap (fun e =>
    if lotShares e.2 = 0 then none
    else
      some (e.1, round2 ((get_live_price fetch e.1 -
        lotCost e.2 / (lotShares e.2 : ℚ)) * (lotShares e.2 : ℚ))))

/-- A validation violation as the source formats it into its error string:
date, symbol, requested shares and the running balance at that row. -/
structure Violation where
  date : String
  symbol : String
  shares_requested : ℕ
  shares_owned : ℤ
deriving DecidableEq, Repr

/-- The error string `validate_trades` appends for one violation. -/
def violationMsg (v : Violation) : String :=
  "Invalid sell on " ++ v.date ++ ": " ++ toString v.shares_requested ++
    " shares of " ++ v.symbol ++ " (owned: " ++ toString v.shares_owned ++ ")"

/-- One row of `validate_trades`'s pass: Buy adds to the running balance;
Sell first records a violation when the balance is short, then always
subtracts the full requested amount. -/
def validateStep (acc : List (String × ℤ) × List Violation) (r : TradeRecord) :
    List (String × ℤ) × List Violation :=
  match r.type with
  | .Buy => (dupdate 0 r.symbol (fun b => b + (r.shares : ℤ)) acc.1, acc.2)
  | .Sell =>
    let owned := dget 0 acc.1 r.symbol
    let errs := if owned < (r.shares : ℤ) then
        acc.2 ++ [⟨r.date, r.symbol, r.shares, owned⟩]
      else acc.2
    (dupdate 0 r.symbol (fun b => b - (r.shares : ℤ)) acc.1, errs)

/-- The state (`balances`, `errors`) after `validate_trades`'s loop. -/
def validateFold (l : Ledger) : List (String × ℤ) × List Violation :=
  l.foldl validateStep ([], [])

/-- `validate_trades()`: the ordered list of violation messages. -/
def validate_trades (l : Ledger) : List String :=
  (validateFold l).2.map violationMsg

/-- One row of `simulate_sell`'s replay of the requested symbol only
(`if row['symbol'] != symbol: continue`): rows of other symbols are skipped,
Buy appends a lot, Sell consumes FIFO. -/
def simHoldingsStep (symbol : String) (holdings : List Lot) (r : TradeRecord) :
    List Lot :=
  if r.symbol ≠ symbol then holdings
  else
    match r.type with
    | .Buy => holdings ++ [(r.shares, r.price_per_share)]
    | .Sell => fifoSell r.shares holdings

/-- The `holdings` list `simulate_sell` builds for the requested symbol. -/
def simHoldings (l : Ledger) (symbol : String) : List Lot :=
  l.foldl (simHoldingsStep symbol) []

/-- `simulate_sell(symbol, shares)`: replay the symbol's rows, then apply one
hypothetical FIFO sell of `shares` at the live price and return the rounded
proceeds. `shares` is a Python int; the guard `while to_sell > 0` means a
non-positive count runs zero iterations, which `Int.toNat` captures. -/
def simulate_sell (fetch : String → Option ℚ) (l : Ledger) (symbol : String)
    (shares : ℤ) : ℚ :=
  round2 (fifoSellGain (get_live_price fetch symbol) shares.toNat
    (simHoldings l symbol)).2

/-- `pnl()`: the pair (realized, unrealized), the second component summing the
values of `unrealized_gains()`. -/
def pnl (fetch : String → Option ℚ) (l : Ledger) : ℚ × ℚ :=
  (realized_gains l, ((unrealized_gains fetch l).map Prod.snd).sum)

/-- One `simulate_sell` tool call seen as a state transformer over the module
state. The only module-level state the source has is the loaded ledger `df`
(and the registration object); `simulate_sell`'s body writes only the local
variables `holdings`, `to_sell`, `proceeds`, so the call returns its value
and leaves the state exactly as it found it. -/
def simulate_sell_call (fetch : String → Option ℚ) (st : Ledger)
    (symbol : String) (shares : ℤ) : ℚ × Ledger :=
  (simulate_sell fetch st symbol shares, st)

/-- The module state after a sequence of `simulate_sell` calls. -/
def runSimCalls (fetch : String → Option ℚ) (st : Ledger)
    (calls : List (String × ℤ)) : Ledger :=
  calls.foldl (fun s c => (simulate_sell_call fetch s c.1 c.2).2) st

/-- Every lot of a queue holds a positive share count. -/
def PosLots (q : List Lot) : Prop := ∀ lot ∈ q, 0 < lot.1

/-- Every queue of a per-symbol map holds only positive lots. -/
def PosMap (m : List (String × List Lot)) : Prop := ∀ e ∈ m, PosLots e.2

/-- The plain-arithmetic total of bought shares of one symbol. -/
def buySharesSum (l : Ledger) (s : String) : ℕ :=
  (l.map (fun r => if r.symbol = s ∧ r.type = TradeType.Buy then r.shares else 0)).sum

/-- The plain-arithmetic total of sold shares of one symbol. -/
def sellSharesSum (l : Ledger) (s : String) : ℕ :=
  (l.map (fun r => if r.symbol = s ∧ r.type = TradeType.Sell then r.shares else 0)).sum

/-- The specification's balance formula: Σ(buy shares) − Σ(sell shares). -/
def netShares (l : Ledger) (s : String) : ℤ :=
  (buySharesSum l s : ℤ) - (sellSharesSum l s : ℤ)

/-- A price oracle for concrete witnesses: every fetch succeeds at 5. -/
def constFetch : String → Option ℚ := fun _ => some 5

/-- The ledger of the spec's FIFO test: Buy 10@$1, Buy 10@$2, Sell 15@$5. -/
def ledgerFifo : Ledger :=
  [⟨"2024-01-01", "AAPL", .Buy, 10, 1⟩,
   ⟨"2024-01-02", "AAPL", .Buy, 10, 2⟩,
   ⟨"2024-02-10", "AAPL", .Sell, 15, 5⟩]

/-- The ledger of the spec's validation test: Buy AAPL 10, Sell AAPL 20. -/
def ledgerOversell : Ledger :=
  [⟨"2024-01-01", "AAPL", .Buy, 10, 1⟩,
   ⟨"2024-02-10", "AAPL", .Sell, 20, 5⟩]

/-- A one-buy ledger used by concrete witnesses. -/
def ledgerOneBuy : Ledger := [⟨"2024-01-01", "AAPL", .Buy, 10, 5⟩]

/-- A fully-sold ledger: Buy AAPL 10@$1 then Sell AAPL 10@$2. -/
def ledgerFullySold : Ledger :=
  [⟨"2024-01-01", "AAPL", .Buy, 10, 1⟩,
   ⟨"2024-01-05", "AAPL", .Sell, 10, 2⟩]

/-! ### Association-list lemmas -/

theorem keysOf_nil {α : Type} : keysOf ([] : List (String × α)) = [] := rfl

theorem keysOf_cons {α : Type} (k : String) (v : α) (rest : List (String × α)) :
    keysOf ((k, v) :: rest) = k :: keysOf rest := rfl

theorem dget_dupdate_self {α : Type} (d : α) (s : String) (f : α → α)
    (m : List (String × α)) : dget d (dupdate d s f m) s = f (dget d m s) := by
  induction m with
  | nil => simp [dget, dupdate]
  | cons kv rest ih =>
    obtain ⟨k, v⟩ := kv
    by_cases hk : k = s
    · simp [dget, dupdate, hk]
    · simp [dget, dupdate, hk, ih]

theorem dget_dupdate_ne {α : Type} (d : α) {s t : String} (hst : s ≠ t)
    (f : α → α) (m : List (String × α)) :
    dget d (dupdate d s f m) t = dget d m t := by
  have hts : ¬ t = s := fun h => hst h.symm
  induction m with
  | nil => simp [dget, dupdate, hst, hts]
  | cons kv rest ih =>
    obtain ⟨k, v⟩ := kv
    by_cases hk : k = s
    · subst hk
      simp [dget, dupdate, hst, hts]
    · by_cases ht : k = t
      · simp [dget, dupdate, hk, ht, hts]
      · simp [dget, dupdate, hk, ht, ih]

theorem dupdate_const {α : Type} (d : α) (s : String) (f : α → α)
    (m : List (String × α)) :
    dupdate d s (fun _ => f (dget d m s)) m = dupdate d s f m := by
  induction m with
  | nil => simp [dget, dupdate]
  | cons kv rest ih =>
    obtain ⟨k, v⟩ := kv
    by_cases hk : k = s
    · simp [dget, dupdate, hk]
    · simp [dget, dupdate, hk]
      exact ih

theorem dupdate_congr {α : Type} (d : α) (s : String) {f g : α → α}
    (m : List (String × α)) (h : f (dget d m s) = g (dget d m s)) :
    dupdate d s f m = dupdate d s g m := by
  rw [← dupdate_const d s f m, ← dupdate_const d s g m, h]

theorem keysOf_dupdate {α : Type} (d : α) (s : String) (f : α → α)
    (m : List (String × α)) :
    keysOf (dupdate d s f m) =
      if s ∈ keysOf m then keysOf m else keysOf m ++ [s] := by
  induction m with
  | nil => simp [keysOf, dupdate]
  | cons kv rest ih =>
    obtain ⟨k, v⟩ := kv
    by_cases hk : k = s
    · simp [dupdate, hk, keysOf_cons, List.mem_cons]
    · have hks : ¬ s = k := fun h => hk h.symm
      simp only [dupdate, if_neg hk, keysOf_cons]
      rw [ih]
      by_cases hs : s ∈ keysOf rest
      · simp [List.mem_cons, hs, hks]
      · simp [List.mem_cons, hs, hks]

theorem nodup_keysOf_dupdate {α : Type} (d : α) (s : String) (f : α → α)
    {m : List (String × α)} (h : (keysOf m).Nodup) :
    (keysOf (dupdate d s f m)).Nodup := by
  rw [keysOf_dupdate]
  by_cases hs : s ∈ keysOf m
  · simpa [hs] using h
  · simpa [hs] using List.Nodup.append h (List.nodup_singleton s)
      (by simpa using fun h' => hs h')

theorem dget_of_not_mem {α : Type} (d : α) {s : String}
    {m : List (String × α)} (h : s ∉ keysOf m) : dget d m s = d := by
  induction m with
  | nil => simp [dget]
  | cons kv rest ih =>
    obtain ⟨k, v⟩ := kv
    rw [keysOf_cons] at h
    have hk : ¬ k = s := fun hh => h (by simp [hh])
    have h2 : s ∉ keysOf rest := fun hh => h (List.mem_cons_of_mem _ hh)
    simp [dget, hk, ih h2]

theorem mem_of_mem_keys {α : Type} (d : α) {s : String}
    {m : List (String × α)} (h : s ∈ keysOf m) : (s, dget d m s) ∈ m := by
  induction m with
  | nil => simp [keysOf] at h
  | cons kv rest ih =>
    obtain ⟨k, v⟩ := kv
    by_cases hk : k = s
    · subst hk
      simp [dget]
    · rw [keysOf_cons] at h
      rcases List.mem_cons.mp h with h1 | h1
      · exact absurd h1.symm hk
      · simp only [dget, if_neg hk]
        exact List.mem_cons_of_mem _ (ih h1)

theorem dget_eq_of_mem {α : Type} (d : α) {s : String} {v : α}
    {m : List (String × α)} (hnd : (keysOf m).Nodup) (h : (s, v) ∈ m) :
    dget d m s = v := by
  induction m with
  | nil => simp at h
  | cons kv rest ih =>
    obtain ⟨k, w⟩ := kv
    rw [keysOf_cons, List.nodup_cons] at hnd
    rcases List.mem_cons.mp h with h1 | h1
    · rw [Prod.mk.injEq] at h1
      obtain ⟨hs, hv⟩ := h1
      subst hs
      subst hv
      simp [dget]
    · have hk : ¬ k = s := by
        intro hkk
        subst hkk
        exact hnd.1 (by simpa [keysOf] using List.mem_map_of_mem Prod.fst h1)
      simp only [dget, if_neg hk]
      exact ih hnd.2 h1

/-! ### Rounding lemmas -/

theorem roundHalfEven_intCast (z : ℤ) : roundHalfEven ((z : ℚ)) = z := by
  unfold roundHalfEven
  rw [Rat.num_intCast, Rat.den_intCast]
  have h1 : ((1 : ℕ) : ℤ) = 1 := rfl
  have hr : (2 * z + ((1 : ℕ) : ℤ)) / (2 * ((1 : ℕ) : ℤ)) = z := by
    rw [h1, mul_one, show 2 * z + 1 = 1 + z * 2 by ring,
      Int.add_mul_ediv_right 1 z (by norm_num)]
    norm_num
  rw [hr, if_neg]
  intro hcon
  omega

theorem round2_int_div (z : ℤ) (x : ℚ) (h : x * 100 = (z : ℚ)) :
    round2 x = (z : ℚ) / 100 := by
  rw [round2, h, roundHalfEven_intCast]

theorem round2_zero : round2 0 = 0 := by
  rw [round2_int_div 0 0 (by norm_num)]
  norm_num

/-! ### FIFO queue lemmas -/

theorem posLots_nil : PosLots [] := by
  intro lot h
  simp at h

theorem fifoSellGain_zero (price : ℚ) (q : List Lot) :
    fifoSellGain price 0 q = (q, 0) := by
  cases q <;> rfl

theorem fifoSellGain_nil (price : ℚ) (n : ℕ) :
    fifoSellGain price n [] = ([], 0) := by
  cases n <;> rfl

theorem fifoSell_cons_pos {n : ℕ} (hn : 0 < n) (qty : ℕ) (bp : ℚ)
    (rest : List Lot) :
    fifoSell n ((qty, bp) :: rest) =
      if min n qty = qty then fifoSell (n - qty) rest
      else (qty - min n qty, bp) :: rest := by
  cases n with
  | zero => omega
  | succ k => simp [fifoSell]

theorem fifoSellGain_cons_pos (price : ℚ) {n : ℕ} (hn : 0 < n) (qty : ℕ)
    (bp : ℚ) (rest : List Lot) :
    fifoSellGain price n ((qty, bp) :: rest) =
      if min n qty = qty then
        ((fifoSellGain price (n - qty) rest).1,
          ((min n qty : ℕ) : ℚ) * (price - bp) +
            (fifoSellGain price (n - qty) rest).2)
      else ((qty - min n qty, bp) :: rest,
        ((min n qty : ℕ) : ℚ) * (price - bp)) := by
  cases n with
  | zero => omega
  | succ k => simp [fifoSellGain]

theorem fifoSellGain_fst (price : ℚ) (n : ℕ) (q : List Lot) :
    (fifoSellGain price n q).1 = fifoSell n q := by
  induction q generalizing n with
  | nil => cases n <;> rfl
  | cons lot rest ih =>
    obtain ⟨qty, bp⟩ := lot
    cases n with
    | zero => rfl
    | succ k =>
      by_cases hm : min (k + 1) qty = qty
      · simp [fifoSellGain, fifoSell, hm, ih]
      · simp [fifoSellGain, fifoSell, hm]

theorem posLots_fifoSell {q : List Lot} (hq : PosLots q) (n : ℕ) :
    PosLots (fifoSell n q) := by
  induction q generalizing n with
  | nil =>
    cases n <;> exact posLots_nil
  | cons lot rest ih =>
    obtain ⟨qty, bp⟩ := lot
    have hrest : PosLots rest := fun x hx => hq x (List.mem_cons_of_mem _ hx)
    cases n with
    | zero => exact hq
    | succ k =>
      by_cases hm : min (k + 1) qty = qty
      · simpa [fifoSell, hm] using ih hrest (k + 1 - qty)
      · have hlt : min (k + 1) qty < qty :=
          lt_of_le_of_ne (Nat.min_le_right _ _) hm
        intro x hx
        simp only [fifoSell, if_neg hm] at hx
        rcases List.mem_cons.mp hx with h1 | h1
        · subst h1
          exact Nat.sub_pos_of_lt hlt
        · exact hrest x h1

theorem lotShares_cons (qty : ℕ) (bp : ℚ) (rest : List Lot) :
    lotShares ((qty, bp) :: rest) = qty + lotShares rest := by
  simp [lotShares]

theorem fifoSellGain_oversell (price : ℚ) {q : List Lot} (hq : PosLots q) :
    ∀ {n : ℕ}, lotShares q ≤ n →
      fifoSellGain price n q = fifoSellGain price (lotShares q) q := by
  induction q with
  | nil =>
    intro n _
    cases n <;> rfl
  | cons lot rest ih =>
    obtain ⟨qty, bp⟩ := lot
    intro n hn
    have hqty : 0 < qty := hq (qty, bp) (List.mem_cons_self _ _)
    have hrest : PosLots rest := fun x hx => hq x (List.mem_cons_of_mem _ hx)
    rw [lotShares_cons] at hn ⊢
    have hn1 : 0 < n := by omega
    have ht1 : 0 < qty + lotShares rest := by omega
    rw [fifoSellGain_cons_pos price hn1, fifoSellGain_cons_pos price ht1]
    have hm1 : min n qty = qty := Nat.min_eq_right (by omega)
    have hm2 : min (qty + lotShares rest) qty = qty := Nat.min_eq_right (by omega)
    have hsub : qty + lotShares rest - qty = lotShares rest := by omega
    rw [hm1, hm2, hsub, ih hrest (by omega : lotShares rest ≤ n - qty)]

/-! ### Replay fold lemmas -/

theorem realizedStep_fst (acc : List (String × List Lot) × ℚ) (r : TradeRecord) :
    (realizedStep acc r).1 = holdingsStep acc.1 r := by
  cases hty : r.type
  · simp [realizedStep, holdingsStep, hty]
  · simp only [realizedStep, holdingsStep, hty, fifoSellGain_fst]
    exact dupdate_const [] r.symbol (fifoSell r.shares) acc.1

theorem foldl_realized_fst (l : Ledger) (acc : List (String × List Lot) × ℚ) :
    (l.foldl realizedStep acc).1 = l.foldl holdingsStep acc.1 := by
  induction l generalizing acc with
  | nil => rfl
  | cons r rest ih =>
    rw [List.foldl_cons, List.foldl_cons, ih, realizedStep_fst]

theorem realizedFold_fst (l : Ledger) : (realizedFold l).1 = buildHoldings l :=
  foldl_realized_fst l ([], 0)

theorem validateStep_fst (acc : List (String × ℤ) × List Violation)
    (r : TradeRecord) : (validateStep acc r).1 = balStep acc.1 r := by
  cases hty : r.type <;> simp [validateStep, balStep, hty]

theorem foldl_validate_fst (l : Ledger)
    (acc : List (String × ℤ) × List Violation) :
    (l.foldl validateStep acc).1 = l.foldl balStep acc.1 := by
  induction l generalizing acc with
  | nil => rfl
  | cons r rest ih =>
    rw [List.foldl_cons, List.foldl_cons, ih, validateStep_fst]

theorem validateFold_fst (l : Ledger) : (validateFold l).1 = holdingsBalances l :=
  foldl_validate_fst l ([], [])

theorem dget_holdingsStep (m : List (String × List Lot)) (r : TradeRecord)
    (s : String) :
    dget [] (holdingsStep m r) s = simHoldingsStep s (dget [] m s) r := by
  by_cases hsym : r.symbol = s
  · subst hsym
    cases hty : r.type
    · simp [holdingsStep, simHoldingsStep, hty, dget_dupdate_self]
    · simp [holdingsStep, simHoldingsStep, hty, dget_dupdate_self]
  · cases hty : r.type <;>
      simp [holdingsStep, simHoldingsStep, hty, hsym, dget_dupdate_ne [] hsym]

theorem foldl_simHoldings (l : Ledger) (s : String) :
    ∀ m, l.foldl (simHoldingsStep s) (dget [] m s) =
      dget [] (l.foldl holdingsStep m) s := by
  induction l with
  | nil => intro m; rfl
  | cons r rest ih =>
    intro m
    rw [List.foldl_cons, List.foldl_cons, ← dget_holdingsStep, ih]

theorem simHoldings_eq (l : Ledger) (s : String) :
    simHoldings l s = dget [] (buildHoldings l) s := by
  have h := foldl_simHoldings l s []
  simpa [simHoldings, buildHoldings, dget] using h

theorem simHoldings_nil_of_absent {s : String} :
    ∀ {l : Ledger}, (∀ r ∈ l, r.symbol ≠ s) → simHoldings l s = [] := by
  intro l
  unfold simHoldings
  induction l with
  | nil => intro _; rfl
  | cons r rest ih =>
    intro h
    rw [List.foldl_cons]
    have hr : simHoldingsStep s [] r = [] := by
      simp [simHoldingsStep, h r (List.mem_cons_self _ _)]
    rw [hr]
    exact ih (fun x hx => h x (List.mem_cons_of_mem _ hx))

theorem realizedFold_append (l : Ledger) (r : TradeRecord) :
    realizedFold (l ++ [r]) = realizedStep (realizedFold l) r := by
  unfold realizedFold
  rw [List.foldl_append, List.foldl_cons, List.foldl_nil]

theorem buildHoldings_append (l : Ledger) (r : TradeRecord) :
    buildHoldings (l ++ [r]) = holdingsStep (buildHoldings l) r := by
  unfold buildHoldings
  rw [List.foldl_append, List.foldl_cons, List.foldl_nil]

/-! ### Balance lemmas -/

theorem netShares_cons (r : TradeRecord) (l : Ledger) (s : String) :
    netShares (r :: l) s =
      (if r.symbol = s ∧ r.type = TradeType.Buy then (r.shares : ℤ) else 0)
        - (if r.symbol = s ∧ r.type = TradeType.Sell then (r.shares : ℤ) else 0)
        + netShares l s := by
  simp only [netShares, buySharesSum, sellSharesSum, List.map_cons, List.sum_cons]
  push_cast
  ring

theorem dget_foldl_balStep (l : Ledger) (s : String) :
    ∀ m, dget 0 (l.foldl balStep m) s = dget 0 m s + netShares l s := by
  induction l with
  | nil =>
    intro m
    simp [netShares, buySharesSum, sellSharesSum]
  | cons r rest ih =>
    intro m
    rw [List.foldl_cons, ih, netShares_cons]
    by_cases hsym : r.symbol = s
    · subst hsym
      cases hty : r.type
      · simp [balStep, hty, dget_dupdate_self]
        ring
      · simp [balStep, hty, dget_dupdate_self]
        ring
    · cases hty : r.type <;>
        simp [balStep, hty, hsym, dget_dupdate_ne (0 : ℤ) hsym]

theorem dget_holdingsBalances (l : Ledger) (s : String) :
    dget 0 (holdingsBalances l) s = netShares l s := by
  have h := dget_foldl_balStep l s []
  simpa [holdingsBalances, dget] using h

theorem nodup_keys_foldl_balStep (l : Ledger) :
    ∀ m, (keysOf m).Nodup → (keysOf (l.foldl balStep m)).Nodup := by
  induction l with
  | nil => intro m h; exact h
  | cons r rest ih =>
    intro m h
    rw [List.foldl_cons]
    apply ih
    cases hty : r.type <;> simp only [balStep, hty] <;>
      exact nodup_keysOf_dupdate _ _ _ h

theorem nodup_keys_holdingsBalances (l : Ledger) :
    (keysOf (holdingsBalances l)).Nodup :=
  nodup_keys_foldl_balStep l [] (by simp [keysOf])

theorem nodup_keys_foldl_holdingsStep (l : Ledger) :
    ∀ m, (keysOf m).Nodup → (keysOf (l.foldl holdingsStep m)).Nodup := by
  induction l with
  | nil => intro m h; exact h
  | cons r rest ih =>
    intro m h
    rw [List.foldl_cons]
    apply ih
    cases hty : r.type <;> simp only [holdingsStep, hty] <;>
      exact nodup_keysOf_dupdate _ _ _ h

theorem nodup_keys_buildHoldings (l : Ledger) :
    (keysOf (buildHoldings l)).Nodup :=
  nodup_keys_foldl_holdingsStep l [] (by simp [keysOf])

/-! ### Positivity invariants -/

theorem posMap_dupdate {m : List (String × List Lot)} (hm : PosMap m)
    {f : List Lot → List Lot} (hf : ∀ q, PosLots q → PosLots (f q))
    (s : String) : PosMap (dupdate [] s f m) := by
  induction m with
  | nil =>
    intro e he
    simp only [dupdate, List.mem_singleton] at he
    subst he
    exact hf [] posLots_nil
  | cons kv rest ih =>
    obtain ⟨k, v⟩ := kv
    by_cases hk : k = s
    · intro e he
      simp only [dupdate, if_pos hk] at he
      rcases List.mem_cons.mp he with h1 | h1
      · subst h1
        exact hf v (hm (k, v) (List.mem_cons_self _ _))
      · exact hm e (List.mem_cons_of_mem _ h1)
    · intro e he
      simp only [dupdate, if_neg hk] at he
      rcases List.mem_cons.mp he with h1 | h1
      · subst h1
        exact hm (k, v) (List.mem_cons_self _ _)
      · exact ih (fun x hx => hm x (List.mem_cons_of_mem _ hx)) e h1

theorem posMap_foldl_holdingsStep :
    ∀ (l : Ledger), (∀ r ∈ l, 0 < r.shares) →
      ∀ m, PosMap m → PosMap (l.foldl holdingsStep m) := by
  intro l
  induction l with
  | nil => intro _ m h; exact h
  | cons r rest ih =>
    intro hl m h
    rw [List.foldl_cons]
    apply ih (fun x hx => hl x (List.mem_cons_of_mem _ hx))
    cases hty : r.type
    · simp only [holdingsStep, hty]
      apply posMap_dupdate h _ r.symbol
      intro q hq x hx
      rcases List.mem_append.mp hx with h1 | h1
      · exact hq x h1
      · rw [List.mem_singleton] at h1
        subst h1
        exact hl r (List.mem_cons_self _ _)
    · simp only [holdingsStep, hty]
      exact posMap_dupdate h (fun q hq => posLots_fifoSell hq r.shares) r.symbol

theorem posMap_buildHoldings (l : Ledger) (hl : ∀ r ∈ l, 0 < r.shares) :
    PosMap (buildHoldings l) :=
  posMap_foldl_holdingsStep l hl [] (by intro e he; simp at he)

theorem posLots_dget {m : List (String × List Lot)} (hm : PosMap m)
    (s : String) : PosLots (dget [] m s) := by
  induction m with
  | nil => exact posLots_nil
  | cons kv rest ih =>
    obtain ⟨k, v⟩ := kv
    by_cases hk : k = s
    · simpa [dget, hk] using hm (k, v) (List.mem_cons_self _ _)
    · simpa [dget, hk] using ih (fun e he => hm e (List.mem_cons_of_mem _ he))

theorem runSimCalls_id (fetch : String → Option ℚ) (l : Ledger)
    (calls : List (String × ℤ)) : runSimCalls fetch l calls = l := by
  induction calls with
  | nil => rfl
  | cons c rest ih =>
    rw [runSimCalls] at ih ⊢
    rw [List.foldl_cons]
    exact ih

/-! ### Unfolding equations -/

theorem realized_gains_def (l : Ledger) :
    realized_gains l = round2 (realizedFold l).2 := rfl

theorem simulate_sell_def (fetch : String → Option ℚ) (l : Ledger)
    (symbol : String) (shares : ℤ) :
    simulate_sell fetch l symbol shares =
      round2 (fifoSellGain (get_live_price fetch symbol) shares.toNat
        (simHoldings l symbol)).2 := rfl

theorem realizedStep_sell (acc : List (String × List Lot) × ℚ) (d s : String)
    (n : ℕ) (p : ℚ) :
    realizedStep acc ⟨d, s, TradeType.Sell, n, p⟩ =
      (dupdate [] s (fun _ => (fifoSellGain p n (dget [] acc.1 s)).1) acc.1,
        acc.2 + (fifoSellGain p n (dget [] acc.1 s)).2) := rfl

theorem holdingsStep_sell (m : List (String × List Lot)) (d s : String)
    (n : ℕ) (p : ℚ) :
    holdingsStep m ⟨d, s, TradeType.Sell, n, p⟩ =
      dupdate [] s (fun q => fifoSell n q) m := rfl

/-! ### The specification's claims -/

/-- C1: `realized_gains()` matches each Sell against the oldest unsold Buy
lots of the same symbol in FIFO order, accumulating
`matched_quantity * (sell_price - lot_unit_cost)` per lot touched and
rounding to 2 decimals; on the ledger Buy 10@$1, Buy 10@$2, Sell 15@$5 it
returns exactly 10·(5−1) + 5·(5−2) = 55.00. -/
theorem realized_gains_fifo_example : realized_gains ledgerFifo = 55 := by
  have h : (realizedFold ledgerFifo).2 = 55 := by
    norm_num [realizedFold, ledgerFifo, realizedStep, dget, dupdate, fifoSellGain,
      Nat.min_def]
  show round2 (realizedFold ledgerFifo).2 = 55
  rw [h, round2_int_div 5500 _ (by norm_num)]
  norm_num

/-- C2 (the code's actual failure behaviour): when the price fetch fails,
`get_live_price` returns the plain numeric sentinel -1.0 rather than a
distinguishable unavailable signal; `current_price` passes it straight
through, and `unrealized_gains` uses it as a market price, silently
computing (-1 − 5)·10 = -60.00 for a 10-share holding of average cost 5. -/
theorem price_unavailable_sentinel :
    get_live_price (fun _ => none) "AAPL" = -1 ∧
    current_price (fun _ => none) "AAPL" = -1 ∧
    unrealized_gains (fun _ => none) ledgerOneBuy = [("AAPL", -60)] := by
  refine ⟨rfl, rfl, ?_⟩
  have h1 : buildHoldings ledgerOneBuy = [("AAPL", [(10, 5)])] := by decide
  simp only [unrealized_gains, h1]
  norm_num [List.filterMap_cons, List.filterMap_nil]
  rw [round2_int_div (-6000) _ (by norm_num [get_live_price, lotCost, lotShares])]
  norm_num [lotShares]

/-- C3: `validate_trades()` keeps a per-symbol running integer balance that
every Sell decrements by the full requested amount (no clamping — the final
balance always equals the plain Σbuy − Σsell), never halts, and on the
ledger [Buy AAPL 10, Sell AAPL 20] emits exactly one violation carrying
date, symbol, requested=20 and owned=10. -/
theorem validate_trades_flags_oversell :
    (∀ (l : Ledger) (s : String), dget 0 (validateFold l).1 s = netShares l s) ∧
    (validateFold ledgerOversell).2 = [⟨"2024-02-10", "AAPL", 20, 10⟩] ∧
    validate_trades ledgerOversell =
      ["Invalid sell on 2024-02-10: 20 shares of AAPL (owned: 10)"] := by
  refine ⟨?_, by decide, by decide⟩
  intro l s
  rw [validateFold_fst]
  exact dget_holdingsBalances l s

/-- C4: for every ledger (whose rows carry positive share counts, per the
data model), a Sell whose quantity is at least the shares remaining in the
symbol's FIFO queue behaves exactly like selling the remaining total: the
unmatched remainder adds no gain term in `realized_gains`, removes no lots
from the replayed holdings, and adds no proceeds in `simulate_sell` — it is
silently dropped, with no error. -/
theorem oversell_remainder_dropped (fetch : String → Option ℚ) (l : Ledger)
    (d s : String) (p : ℚ) (n : ℕ)
    (hpos : ∀ r ∈ l, 0 < r.shares)
    (hover : lotShares (dget [] (buildHoldings l) s) ≤ n) :
    realized_gains (l ++ [⟨d, s, TradeType.Sell, n, p⟩]) =
      realized_gains (l ++ [⟨d, s, TradeType.Sell,
        lotShares (dget [] (buildHoldings l) s), p⟩]) ∧
    buildHoldings (l ++ [⟨d, s, TradeType.Sell, n, p⟩]) =
      buildHoldings (l ++ [⟨d, s, TradeType.Sell,
        lotShares (dget [] (buildHoldings l) s), p⟩]) ∧
    simulate_sell fetch l s ((n : ℕ) : ℤ) =
      simulate_sell fetch l s ((lotShares (dget [] (buildHoldings l) s) : ℕ) : ℤ) := by
  have hQ : PosLots (dget [] (buildHoldings l) s) :=
    posLots_dget (posMap_buildHoldings l hpos) s
  have hkey : ∀ p' : ℚ,
      fifoSellGain p' n (dget [] (buildHoldings l) s) =
        fifoSellGain p' (lotShares (dget [] (buildHoldings l) s))
          (dget [] (buildHoldings l) s) :=
    fun p' => fifoSellGain_oversell p' hQ hover
  refine ⟨?_, ?_, ?_⟩
  · rw [realized_gains_def, realized_gains_def, realizedFold_append,
      realizedFold_append, realizedStep_sell, realizedStep_sell,
      realizedFold_fst, hkey p]
  · rw [buildHoldings_append, buildHoldings_append, holdingsStep_sell,
      holdingsStep_sell]
    apply dupdate_congr
    have h1 := congrArg Prod.fst (hkey p)
    rw [fifoSellGain_fst, fifoSellGain_fst] at h1
    exact h1
  · rw [simulate_sell_def, simulate_sell_def, Int.toNat_natCast,
      Int.toNat_natCast, simHoldings_eq, hkey]

/-- C4 witness: on [Buy AAPL 10@$5], selling 20 shares behaves exactly like
selling the 10 available ones (the 10 remaining = `lotShares (dget ...)`). -/
theorem oversell_remainder_dropped_witness :
    realized_gains (ledgerOneBuy ++ [⟨"2024-03-01", "AAPL", TradeType.Sell, 20, 3⟩]) =
      realized_gains (ledgerOneBuy ++ [⟨"2024-03-01", "AAPL", TradeType.Sell,
        lotShares (dget [] (buildHoldings ledgerOneBuy) "AAPL"), 3⟩]) ∧
    buildHoldings (ledgerOneBuy ++ [⟨"2024-03-01", "AAPL", TradeType.Sell, 20, 3⟩]) =
      buildHoldings (ledgerOneBuy ++ [⟨"2024-03-01", "AAPL", TradeType.Sell,
        lotShares (dget [] (buildHoldings ledgerOneBuy) "AAPL"), 3⟩]) ∧
    simulate_sell constFetch ledgerOneBuy "AAPL" ((20 : ℕ) : ℤ) =
      simulate_sell constFetch ledgerOneBuy "AAPL"
        ((lotShares (dget [] (buildHoldings ledgerOneBuy) "AAPL") : ℕ) : ℤ) :=
  oversell_remainder_dropped constFetch ledgerOneBuy "2024-03-01" "AAPL" 3 20
    (by decide) (by decide)

/-- C5: `simulate_sell` has no observable side effect: modelled as a state
transformer over the module state (the loaded ledger, the only module-level
state the source has), any sequence of `simulate_sell` calls leaves the
results of subsequent `portfolio()` and `realized_gains()` unchanged. -/
theorem simulate_sell_is_pure (fetch : String → Option ℚ) (l : Ledger)
    (calls : List (String × ℤ)) :
    portfolio (runSimCalls fetch l calls) = portfolio l ∧
    realized_gains (runSimCalls fetch l calls) = realized_gains l := by
  rw [runSimCalls_id]
  exact ⟨rfl, rfl⟩

/-- C6: for every ledger and fixed price snapshot, `pnl().realized` equals
`realized_gains()` and `pnl().unrealized` equals the sum of
`unrealized_gains()` values; on the empty ledger both components are 0. -/
theorem pnl_components (fetch : String → Option ℚ) (l : Ledger) :
    (pnl fetch l).1 = realized_gains l ∧
    (pnl fetch l).2 = ((unrealized_gains fetch l).map Prod.snd).sum ∧
    pnl fetch ([] : Ledger) = (0, 0) := by
  refine ⟨rfl, rfl, ?_⟩
  have h : realized_gains ([] : Ledger) = 0 := by
    show round2 (realizedFold ([] : Ledger)).2 = 0
    show round2 0 = 0
    exact round2_zero
  show (realized_gains ([] : Ledger),
    ((unrealized_gains fetch ([] : Ledger)).map Prod.snd).sum) = (0, 0)
  rw [h]
  rfl

/-- C7: `portfolio()` returns, for each symbol, the plain-arithmetic balance
Σ(buy shares) − Σ(sell shares), and its mapping contains exactly the symbols
whose balance is strictly positive: (s, b) is an entry iff b is s's net
balance and b > 0. -/
theorem portfolio_mem_iff (l : Ledger) (s : String) (b : ℤ) :
    (s, b) ∈ portfolio l ↔ (b = netShares l s ∧ 0 < b) := by
  constructor
  · intro h
    have h1 := List.mem_filter.mp h
    have hb : dget 0 (holdingsBalances l) s = b :=
      dget_eq_of_mem 0 (nodup_keys_holdingsBalances l) h1.1
    have hpos : 0 < b := by simpa using h1.2
    refine ⟨?_, hpos⟩
    rw [← hb]
    exact dget_holdingsBalances l s
  · rintro ⟨hb, hpos⟩
    subst hb
    have hmem : s ∈ keysOf (holdingsBalances l) := by
      by_contra hnm
      have h0 := dget_of_not_mem (0 : ℤ) hnm
      rw [dget_holdingsBalances] at h0
      omega
    have hm2 := mem_of_mem_keys (0 : ℤ) hmem
    rw [dget_holdingsBalances] at hm2
    exact List.mem_filter.mpr ⟨hm2, by simpa using hpos⟩

/-- C8: a symbol whose purchased shares are fully sold (zero shares remain
in its queue after the FIFO replay of the whole ledger) has no entry in the
mapping returned by `unrealized_gains()`. -/
theorem fully_sold_not_in_unrealized (fetch : String → Option ℚ) (l : Ledger)
    (s : String) (h : lotShares (dget [] (buildHoldings l) s) = 0) :
    s ∉ (unrealized_gains fetch l).map Prod.fst := by
  intro hmem
  rcases List.mem_map.mp hmem with ⟨x, hx, hxs⟩
  simp only [unrealized_gains] at hx
  rcases List.mem_filterMap.mp hx with ⟨e, he, hfe⟩
  by_cases hz : lotShares e.2 = 0
  · rw [if_pos hz] at hfe
    exact Option.noConfusion hfe
  · rw [if_neg hz] at hfe
    have he1 : e.1 = s := by
      have h2 := congrArg Prod.fst (Option.some.inj hfe)
      simpa using h2.trans hxs
    have hdg : dget [] (buildHoldings l) s = e.2 := by
      rw [← he1]
      exact dget_eq_of_mem [] (nodup_keys_buildHoldings l) he
    rw [hdg] at h
    exact hz h

/-- C8 witness: on Buy AAPL 10@$1 then Sell AAPL 10@$2, AAPL is fully sold
and `unrealized_gains` has no entry for it. -/
theorem fully_sold_not_in_unrealized_witness :
    "AAPL" ∉ (unrealized_gains constFetch ledgerFullySold).map Prod.fst :=
  fully_sold_not_in_unrealized constFetch ledgerFullySold "AAPL" (by decide)

/-- C9 counterexample: `simulate_sell` does not reject bad inputs with a
structured error before FIFO matching — a negative share count and a symbol
absent from the ledger both complete normally, returning the plain numeric
result 0.00, indistinguishable from a genuine zero-gain sale. -/
theorem simulate_sell_no_rejection :
    simulate_sell constFetch ledgerOneBuy "AAPL" (-3) = 0 ∧
    simulate_sell constFetch ledgerOneBuy "MSFT" 5 = 0 := by
  have e1 : (fifoSellGain (get_live_price constFetch "AAPL") ((-3 : ℤ)).toNat
      (simHoldings ledgerOneBuy "AAPL")).2 = 0 := by decide
  have e2 : (fifoSellGain (get_live_price constFetch "MSFT") ((5 : ℤ)).toNat
      (simHoldings ledgerOneBuy "MSFT")).2 = 0 := by decide
  constructor
  · rw [simulate_sell_def, e1]
    exact round2_zero
  · rw [simulate_sell_def, e2]
    exact round2_zero

/-- C9 amended: `simulate_sell` applies no input validation: with a
non-positive share count the hypothetical FIFO sell loop runs zero
iterations and the call returns 0.00, and with a symbol absent from the
ledger the replayed lot queue is empty and the call likewise returns 0.00;
no structured error is produced in either case. -/
theorem simulate_sell_degenerate_inputs (fetch : String → Option ℚ) (l : Ledger)
    (s : String) (n : ℤ) :
    (n ≤ 0 → simulate_sell fetch l s n = 0) ∧
    ((∀ r ∈ l, r.symbol ≠ s) → simulate_sell fetch l s n = 0) := by
  constructor
  · intro hn
    rw [simulate_sell_def, Int.toNat_of_nonpos hn, fifoSellGain_zero]
    exact round2_zero
  · intro habs
    rw [simulate_sell_def, simHoldings_nil_of_absent habs, fifoSellGain_nil]
    exact round2_zero

/-- C10: filtering the ledger to one symbol commutes with the FIFO replay:
the lot list `simulate_sell` builds from the symbol's rows alone equals the
queue the full-ledger replay of `unrealized_gains` leaves for that symbol
(`buildHoldings`), which in turn equals the queue `realized_gains`'s replay
leaves for it. -/
theorem sim_replay_eq_full_replay (l : Ledger) (s : String) :
    simHoldings l s = dget [] (buildHoldings l) s ∧
    dget [] (realizedFold l).1 s = dget [] (buildHoldings l) s :=
  ⟨simHoldings_eq l s, by rw [realizedFold_fst]⟩

end TraderTools
